import Mathlib

/-!
Verification of the py-evm / trinity transport-framing and sparse-merkle
specification against the source.

Part 1: shallow embedding of `eth2/_utils/merkle_sparse.py`.

Bytes and 32-byte hashes are modelled as `List Nat`; the cryptographic hash
`hash_eth2` (external to the sources, an opaque SHA-256 wrapper) is taken as an
arbitrary function parameter `H : Hash → Hash`, which every theorem quantifies
over.  The helpers imported from `merkle_normal.py` and `eth2/_utils/tuple.py`
(`_calc_parent_hash`, `_hash_layer`, `get_branch_indices`, `get_root`,
`update_tuple_item`) are not under the sources either; they are modelled from
their standard trinity definitions, pinned by how `merkle_sparse.py` uses them.
-/

abbrev Hash := List Nat

/-- Height of the sparse merkle tree (`TreeHeight = 32` in the source). -/
def TreeHeight : Nat := 32

/-- Model of `cytoolz` `take(n, iterate(f, x))`: the list `[x, f x, f (f x), ...]`
of length `n`. -/
def takeIterate (f : α → α) : Nat → α → List α
  | 0, _ => []
  | n + 1, x => x :: takeIterate f n (f x)

/-- Model of `cytoolz` `partition(2, l)`: consecutive pairs, an incomplete
trailing element is dropped. -/
def pairs : List α → List (α × α)
  | a :: b :: rest => (a, b) :: pairs rest
  | _ => []

/-- Modelled from the repository's `merkle_normal.py` (not under the sources):
`_calc_parent_hash(left, right) = hash_eth2(left + right)`. -/
def _calc_parent_hash (H : Hash → Hash) (left right : Hash) : Hash :=
  H (left ++ right)

/-- Modelled from the repository's `merkle_normal.py` (not under the sources):
hash each consecutive pair of a layer. -/
def _hash_layer (H : Hash → Hash) (layer : List Hash) : List Hash :=
  (pairs layer).map fun lr => _calc_parent_hash H lr.1 lr.2

/-- Modelled from the repository's `merkle_normal.py` (not under the sources):
`get_root(tree) = tree[0][0]`. -/
def get_root (tree : List (List Hash)) : Hash :=
  (tree.getD 0 []).getD 0 []

/-- Modelled from the repository's `merkle_normal.py` (not under the sources):
`get_branch_indices(node_index, depth) = take(depth, iterate(λ i. i // 2, node_index))`. -/
def get_branch_indices (node_index : Nat) (depth : Nat) : List Nat :=
  takeIterate (fun index => index / 2) depth node_index

/-- Modelled from the repository's `eth2/_utils/tuple.py` (not under the
sources): replace one position of a tuple. -/
def update_tuple_item (t : List α) (index : Nat) (value : α) : List α :=
  t.set index value

/-- Embedding of `EmptyNodeHashes`: the 32 empty-subtree hashes, starting from
32 zero bytes. -/
def EmptyNodeHashes (H : Hash → Hash) : List Hash :=
  takeIterate (fun node_hash => H (node_hash ++ node_hash)) TreeHeight
    (List.replicate 32 0)

/-- Embedding of `calc_merkle_tree_from_leaves`; the `ValueError` on empty
input is modelled as `none`. -/
def calc_merkle_tree_from_leaves (H : Hash → Hash) (leaves : List Hash) :
    Option (List (List Hash)) :=
  if leaves.length = 0 then none
  else
    some ((List.range TreeHeight).foldl
      (fun tree i =>
        let padded :=
          if (tree.getD 0 []).length % 2 = 1 then
            update_tuple_item tree 0
              ((tree.getD 0 []) ++ [(EmptyNodeHashes H).getD i []])
          else tree
        _hash_layer H (padded.getD 0 []) :: padded)
      [leaves])

/-- Embedding of `get_merkle_proof`; the `ValidationError` is modelled as
`none`.  The index is an `Int` as in Python, where it may be negative. -/
def get_merkle_proof (H : Hash → Hash) (tree : List (List Hash))
    (item_index : Int) : Option (List Hash) :=
  if item_index < 0 ∨ ((tree.getLastD []).length : Int) ≤ item_index ∨
      (tree.getLastD []).getD item_index.toNat [] = (EmptyNodeHashes H).getD 0 []
  then none
  else
    let branch_indices := get_branch_indices item_index.toNat tree.length
    let proof_indices := (branch_indices.map fun i => i ^^^ 1).dropLast
    some ((tree.reverse.zip proof_indices).map fun lp => lp.1.getD lp.2 [])

/-- Embedding of `verify_merkle_proof`; the `assert len(proof) == TreeHeight`
is modelled as `none` on violation.  Python's floor division and nonnegative
remainder on `int` are `Int.fdiv` and `Int.emod`. -/
def verify_merkle_proof (H : Hash → Hash) (root leaf : Hash) (index : Int)
    (proof : List Hash) : Option Bool :=
  if proof.length ≠ TreeHeight then none
  else
    some (decide
      ((List.range TreeHeight).foldl
        (fun value i =>
          if (index.fdiv ((2 : Int) ^ i)).emod 2 ≠ 0 then
            H (proof.getD i [] ++ value)
          else
            H (value ++ proof.getD i []))
        leaf = root))

/-- Helper characterisation: pad a layer with the given empty-subtree hash when
its length is odd, exactly the source's `if len(tree[0]) % 2 == 1` step. -/
def padEven (e : Hash) (l : List Hash) : List Hash :=
  if l.length % 2 = 1 then l ++ [e] else l

/-- Recursive characterisation of the empty-subtree hash at each height. -/
def emptyHash (H : Hash → Hash) : Nat → Hash
  | 0 => List.replicate 32 0
  | j + 1 => H (emptyHash H j ++ emptyHash H j)

/-- The unpadded layer of the tree at height `j` (height 0 = leaves). -/
def layerL (H : Hash → Hash) (leaves : List Hash) : Nat → List Hash
  | 0 => leaves
  | j + 1 => _hash_layer H (padEven (emptyHash H j) (layerL H leaves j))

/-- The padded layer of the tree at height `j`, as stored in the tree. -/
def layerP (H : Hash → Hash) (leaves : List Hash) (j : Nat) : List Hash :=
  padEven (emptyHash H j) (layerL H leaves j)

/-!
Part 2: the discv5 channel-services pipeline.

The implementation `p2p/discv5/channel_services.py` (and the packet wire-format
module behind it) is not under the sources — only its test file is.  Following
the specification, each piece below is therefore modelled from the spec: bytes
are `List Nat`, channels are lists consumed in FIFO order, and each stage is
the function from its input stream to its output stream induced by the spec's
per-message loop.
-/

/-- Modelled from the spec: an IP address, v4 or v6.  Syntactic validity of the
textual address is modelled as range validity of the numeric components. -/
inductive IpAddr
  | v4 (a b c d : Nat)
  | v6 (groups : List Nat)
deriving DecidableEq, Repr

/-- Modelled from the spec: syntactic validity of an IP address. -/
def ipValid : IpAddr → Bool
  | .v4 a b c d =>
    decide (a < 256) && decide (b < 256) && decide (c < 256) && decide (d < 256)
  | .v6 groups => decide (groups.length = 8) && groups.all fun g => decide (g < 65536)

/-- Modelled from the spec: an `Endpoint` is an IP address plus a port,
an immutable value type with structural equality. -/
structure Endpoint where
  ip_address : IpAddr
  port : Nat
deriving DecidableEq, Repr

/-- Modelled from the spec: the `Endpoint` invariant — port in range 0–65535
and a syntactically valid IP address. -/
def validEndpoint (e : Endpoint) : Bool :=
  ipValid e.ip_address && decide (e.port ≤ 65535)

/-- Modelled from the spec: `Endpoint` construction validates the port range
and the address syntax, and fails (returns `none`) when either is violated. -/
def Endpoint.make (ip : IpAddr) (port : Nat) : Option Endpoint :=
  if validEndpoint { ip_address := ip, port := port } then
    some { ip_address := ip, port := port }
  else none

/-- Modelled from the spec: a `Packet` is a closed tagged-variant type with at
minimum the authentication-tag variant, carrying a fixed-width
nonce/authentication-tag and an opaque payload. -/
inductive Packet
  | authTag (auth_tag : List Nat) (encrypted_message : List Nat)
deriving DecidableEq, Repr

/-- Width of the nonce/authentication-tag field (fixed-width per the spec). -/
def TagSize : Nat := 12

/-- Wire-format type discriminant of the authentication-tag variant. -/
def AuthTagDiscriminant : Nat := 1

/-- Modelled from the spec: construction-time validity of a `Packet` — the tag
has its fixed width and all fields are byte sequences. -/
def wfPacket : Packet → Bool
  | .authTag t m =>
    decide (t.length = TagSize) && t.all (fun b => decide (b < 256)) &&
      m.all (fun b => decide (b < 256))

/-- Modelled from the spec: the serialize capability.  The wire encoding is the
type discriminant followed by the tag and the payload; serialization of a value
violating construction-time validity fails. -/
def Packet.to_wire_bytes : Packet → Option (List Nat)
  | .authTag t m =>
    if wfPacket (.authTag t m) then some (AuthTagDiscriminant :: (t ++ m))
    else none

/-- Modelled from the spec: the fallible parse capability.  Dispatches on the
wire discriminant and fails (`none`, the `DecodeError` of the spec) for unknown
discriminants or ill-formed remainders. -/
def decode_packet (wire : List Nat) : Option Packet :=
  match wire with
  | [] => none
  | d :: rest =>
    if d = AuthTagDiscriminant ∧ TagSize ≤ rest.length ∧
        rest.all (fun b => decide (b < 256)) = true then
      some (.authTag (rest.take TagSize) (rest.drop TagSize))
    else none

/-- Modelled from the spec: raw bytes received over UDP with the sender. -/
structure IncomingDatagram where
  datagram : List Nat
  sender : Endpoint
deriving DecidableEq, Repr

/-- Modelled from the spec: raw bytes to send over UDP with the receiver. -/
structure OutgoingDatagram where
  datagram : List Nat
  receiver : Endpoint
deriving DecidableEq, Repr

/-- Modelled from the spec: a decoded packet with its sender. -/
structure IncomingPacket where
  packet : Packet
  sender : Endpoint
deriving DecidableEq, Repr

/-- Modelled from the spec: a packet to encode with its receiver. -/
structure OutgoingPacket where
  packet : Packet
  receiver : Endpoint
deriving DecidableEq, Repr

/-- Modelled from the spec: the `DatagramReceiver` loop — wrap each datagram
delivered by the OS, with its sender endpoint, in arrival order. -/
def DatagramReceiver : List (List Nat × Endpoint) → List IncomingDatagram
  | [] => []
  | d :: rest => { datagram := d.1, sender := d.2 } :: DatagramReceiver rest

/-- Modelled from the spec: the `DatagramSender` loop — write each consumed
message's bytes to its receiver endpoint, in receive order. -/
def DatagramSender : List OutgoingDatagram → List (List Nat × Endpoint)
  | [] => []
  | m :: rest => (m.datagram, m.receiver) :: DatagramSender rest

/-- Modelled from the spec: the `PacketDecoder` loop — parse each consumed
datagram; on success forward the packet with the original sender endpoint; on
parse failure forward nothing and continue. -/
def PacketDecoder : List IncomingDatagram → List IncomingPacket
  | [] => []
  | d :: rest =>
    match decode_packet d.datagram with
    | some packet => { packet := packet, sender := d.sender } :: PacketDecoder rest
    | none => PacketDecoder rest

/-- Modelled from the spec: the `PacketEncoder` loop — serialize each consumed
packet and forward the bytes with the original receiver endpoint; a
serialization failure is fatal to the stage (the loop stops). -/
def PacketEncoder : List OutgoingPacket → List OutgoingDatagram
  | [] => []
  | m :: rest =>
    match m.packet.to_wire_bytes with
    | some wire => { datagram := wire, receiver := m.receiver } :: PacketEncoder rest
    | none => []

/-!
Part 3: lemmas and claim theorems for the pipeline.
-/

lemma wfPacket_fields {t m : List Nat} (h : wfPacket (.authTag t m) = true) :
    t.length = TagSize ∧ t.all (fun b => decide (b < 256)) = true ∧
      m.all (fun b => decide (b < 256)) = true := by
  simp only [wfPacket, Bool.and_eq_true, decide_eq_true_eq] at h
  exact ⟨h.1.1, h.1.2, h.2⟩

lemma to_wire_some (p : Packet) (h : wfPacket p = true) :
    ∃ wire, p.to_wire_bytes = some wire := by
  obtain ⟨t, m⟩ := p
  exact ⟨AuthTagDiscriminant :: (t ++ m), by simp [Packet.to_wire_bytes, h]⟩

lemma decode_encode (p : Packet) (h : wfPacket p = true) :
    ∃ wire, p.to_wire_bytes = some wire ∧ decode_packet wire = some p := by
  obtain ⟨t, m⟩ := p
  obtain ⟨hlen, hts, hms⟩ := wfPacket_fields h
  refine ⟨AuthTagDiscriminant :: (t ++ m), by simp [Packet.to_wire_bytes, h], ?_⟩
  have hcond : AuthTagDiscriminant = AuthTagDiscriminant ∧
      TagSize ≤ (t ++ m).length ∧
      (t ++ m).all (fun b => decide (b < 256)) = true := by
    refine ⟨rfl, ?_, ?_⟩
    · rw [List.length_append]; omega
    · rw [List.all_append, hts, hms]; rfl
  simp only [decode_packet]
  rw [if_pos (show True ∧ TagSize ≤ (t ++ m).length ∧
      ((t ++ m).all fun b => decide (b < 256)) = true from ⟨trivial, hcond.2⟩)]
  rw [← hlen, List.take_left, List.drop_left]

lemma decode_wire_getD (p : Packet) (h : wfPacket p = true) :
    decode_packet ((p.to_wire_bytes).getD []) = some p := by
  obtain ⟨wire, h1, h2⟩ := decode_encode p h
  rw [h1]
  exact h2

lemma PacketDecoder_mem {ds : List IncomingDatagram} {m : IncomingPacket}
    (hm : m ∈ PacketDecoder ds) :
    ∃ d ∈ ds, decode_packet d.datagram = some m.packet ∧ m.sender = d.sender := by
  induction ds with
  | nil => simp [PacketDecoder] at hm
  | cons d rest ih =>
    rw [PacketDecoder] at hm
    cases hd : decode_packet d.datagram with
    | none =>
      rw [hd] at hm
      obtain ⟨d0, hd0, hrest⟩ := ih hm
      exact ⟨d0, List.mem_cons_of_mem _ hd0, hrest⟩
    | some pk =>
      rw [hd] at hm
      rcases List.mem_cons.mp hm with heq | hmem
      · exact ⟨d, List.mem_cons_self _ _, by rw [heq, hd], by rw [heq]⟩
      · obtain ⟨d0, hd0, hrest⟩ := ih hmem
        exact ⟨d0, List.mem_cons_of_mem _ hd0, hrest⟩

lemma PacketDecoder_length (ds : List IncomingDatagram) :
    (PacketDecoder ds).length =
      ds.countP (fun d => (decode_packet d.datagram).isSome) := by
  induction ds with
  | nil => rfl
  | cons d rest ih =>
    rw [PacketDecoder, List.countP_cons]
    cases hd : decode_packet d.datagram <;> simp [hd, ih]

lemma PacketDecoder_append (xs ys : List IncomingDatagram) :
    PacketDecoder (xs ++ ys) = PacketDecoder xs ++ PacketDecoder ys := by
  induction xs with
  | nil => rfl
  | cons d rest ih =>
    rw [List.cons_append, PacketDecoder, PacketDecoder]
    cases hd : decode_packet d.datagram <;> simp [ih]

lemma PacketEncoder_append (xs ys : List OutgoingPacket)
    (h : ∀ m ∈ xs, wfPacket m.packet = true) :
    PacketEncoder (xs ++ ys) = PacketEncoder xs ++ PacketEncoder ys := by
  induction xs with
  | nil => rfl
  | cons m rest ih =>
    obtain ⟨wire, hw⟩ := to_wire_some m.packet (h m (List.mem_cons_self _ _))
    rw [List.cons_append, PacketEncoder, PacketEncoder, hw]
    simp [ih fun x hx => h x (List.mem_cons_of_mem _ hx)]

lemma PacketEncoder_mem {ms : List OutgoingPacket} {o : OutgoingDatagram}
    (ho : o ∈ PacketEncoder ms) : ∃ m ∈ ms, o.receiver = m.receiver := by
  induction ms with
  | nil => simp [PacketEncoder] at ho
  | cons m rest ih =>
    rw [PacketEncoder] at ho
    cases hw : m.packet.to_wire_bytes with
    | none => rw [hw] at ho; simp at ho
    | some wire =>
      rw [hw] at ho
      rcases List.mem_cons.mp ho with heq | hmem
      · exact ⟨m, List.mem_cons_self _ _, by rw [heq]⟩
      · obtain ⟨m0, hm0, hr⟩ := ih hmem
        exact ⟨m0, List.mem_cons_of_mem _ hm0, hr⟩

lemma DatagramReceiver_map (ds : List (List Nat × Endpoint)) :
    DatagramReceiver ds = ds.map fun d => { datagram := d.1, sender := d.2 } := by
  induction ds with
  | nil => rfl
  | cons d rest ih => rw [DatagramReceiver, ih, List.map_cons]

lemma DatagramSender_map (ms : List OutgoingDatagram) :
    DatagramSender ms = ms.map fun m => (m.datagram, m.receiver) := by
  induction ms with
  | nil => rfl
  | cons m rest ih => rw [DatagramSender, ih, List.map_cons]

lemma decoder_receiver_roundtrip (ps : List (Packet × Endpoint))
    (h : ∀ x ∈ ps, wfPacket x.1 = true) :
    PacketDecoder (DatagramReceiver
        (ps.map fun x => ((Packet.to_wire_bytes x.1).getD [], x.2)))
      = ps.map fun x => { packet := x.1, sender := x.2 } := by
  induction ps with
  | nil => rfl
  | cons x rest ih =>
    rw [List.map_cons, DatagramReceiver, PacketDecoder]
    have hx : decode_packet ((Packet.to_wire_bytes x.1).getD []) = some x.1 :=
      decode_wire_getD x.1 (h x (List.mem_cons_self _ _))
    simp only [hx]
    rw [ih fun y hy => h y (List.mem_cons_of_mem _ hy), List.map_cons]

/-- Sample endpoint used by concrete witnesses. -/
def sampleEndpointA : Endpoint := { ip_address := .v4 127 0 0 1, port := 30303 }

/-- Second sample endpoint used by concrete witnesses. -/
def sampleEndpointB : Endpoint := { ip_address := .v4 10 0 0 2, port := 9000 }

/-- Sample validly constructed packet used by concrete witnesses. -/
def samplePacket : Packet := .authTag (List.replicate 12 0) [7, 8]

/-- Sample undecodable datagram used by concrete witnesses. -/
def sampleBadDatagram : IncomingDatagram := { datagram := [], sender := sampleEndpointB }

/-- Sample outgoing packet used by concrete witnesses. -/
def sampleOutgoingPacket : OutgoingPacket :=
  { packet := samplePacket, receiver := sampleEndpointB }

/-- C1: a datagram that fails to parse followed by a valid encoding of `p` makes
the decoder emit exactly the one `IncomingPacket` for `p` with the original
sender, and the stage keeps processing any further input. -/
theorem packet_decoder_resilience (bad : IncomingDatagram) (p : Packet)
    (sender : Endpoint) (more : List IncomingDatagram)
    (hbad : decode_packet bad.datagram = none) (hp : wfPacket p = true) :
    ∃ wire, p.to_wire_bytes = some wire ∧
      PacketDecoder (bad :: { datagram := wire, sender := sender } :: more)
        = { packet := p, sender := sender } :: PacketDecoder more := by
  obtain ⟨wire, hw, hdec⟩ := decode_encode p hp
  refine ⟨wire, hw, ?_⟩
  simp only [PacketDecoder, hbad, hdec]

/-- Witness for C1 at a concrete malformed datagram and a concrete packet. -/
theorem packet_decoder_resilience_witness :
    decode_packet sampleBadDatagram.datagram = none ∧ wfPacket samplePacket = true ∧
    ∃ wire, samplePacket.to_wire_bytes = some wire ∧
      PacketDecoder (sampleBadDatagram ::
          { datagram := wire, sender := sampleEndpointA } :: [])
        = { packet := samplePacket, sender := sampleEndpointA } :: PacketDecoder [] :=
  ⟨by decide, by decide, packet_decoder_resilience sampleBadDatagram samplePacket
    sampleEndpointA [] (by decide) (by decide)⟩

/-- C2: parsing the serialization of any validly constructed packet returns the
packet itself. -/
theorem packet_round_trip (p : Packet) (h : wfPacket p = true) :
    ∃ wire, p.to_wire_bytes = some wire ∧ decode_packet wire = some p :=
  decode_encode p h

/-- Witness for C2 at a concrete packet. -/
theorem packet_round_trip_witness :
    wfPacket samplePacket = true ∧
    ∃ wire, samplePacket.to_wire_bytes = some wire ∧
      decode_packet wire = some samplePacket :=
  ⟨by decide, packet_round_trip samplePacket (by decide)⟩

/-- C3: the decoder forwards a message exactly for the datagrams whose bytes
parse, and every forwarded message wraps a successfully parsed packet with the
original sender, so no malformed packet is ever observed downstream. -/
theorem packet_decoder_forwards_iff (ds : List IncomingDatagram) :
    (∀ m ∈ PacketDecoder ds, ∃ d ∈ ds,
        decode_packet d.datagram = some m.packet ∧ m.sender = d.sender) ∧
    (PacketDecoder ds).length
      = ds.countP (fun d => (decode_packet d.datagram).isSome) :=
  ⟨fun _ hm => PacketDecoder_mem hm, PacketDecoder_length ds⟩

/-- Witness for C3 at a concrete input stream. -/
theorem packet_decoder_forwards_iff_witness :
    (∀ m ∈ PacketDecoder [sampleBadDatagram], ∃ d ∈ [sampleBadDatagram],
        decode_packet d.datagram = some m.packet ∧ m.sender = d.sender) ∧
    (PacketDecoder [sampleBadDatagram]).length
      = [sampleBadDatagram].countP (fun d => (decode_packet d.datagram).isSome) :=
  packet_decoder_forwards_iff [sampleBadDatagram]

/-- C4: for every consumed `OutgoingPacket` the encoder emits exactly the
`OutgoingDatagram` whose bytes are the packet's serialization and whose
receiver endpoint is passed through unchanged. -/
theorem packet_encoder_fidelity (msgs : List OutgoingPacket)
    (h : ∀ m ∈ msgs, wfPacket m.packet = true) :
    (PacketEncoder msgs).length = msgs.length ∧
    ∀ i, i < msgs.length →
      ∃ m wire, msgs[i]? = some m ∧ m.packet.to_wire_bytes = some wire ∧
        (PacketEncoder msgs)[i]?
          = some { datagram := wire, receiver := m.receiver } := by
  induction msgs with
  | nil => exact ⟨rfl, fun i hi => absurd hi (by simp)⟩
  | cons m rest ih =>
    obtain ⟨wire, hw⟩ := to_wire_some m.packet (h m (List.mem_cons_self _ _))
    obtain ⟨ihlen, ihidx⟩ := ih fun x hx => h x (List.mem_cons_of_mem _ hx)
    simp only [PacketEncoder, hw]
    refine ⟨by simp [ihlen], ?_⟩
    intro i hi
    cases i with
    | zero => exact ⟨m, wire, by simp, hw, by simp⟩
    | succ j =>
      obtain ⟨m0, w0, h1, h2, h3⟩ := ihidx j (by simpa using hi)
      exact ⟨m0, w0, by simpa using h1, h2, by simpa using h3⟩

/-- Witness for C4 at a concrete message stream. -/
theorem packet_encoder_fidelity_witness :
    (PacketEncoder [sampleOutgoingPacket]).length = [sampleOutgoingPacket].length ∧
    ∀ i, i < [sampleOutgoingPacket].length →
      ∃ m wire, [sampleOutgoingPacket][i]? = some m ∧
        m.packet.to_wire_bytes = some wire ∧
        (PacketEncoder [sampleOutgoingPacket])[i]?
          = some { datagram := wire, receiver := m.receiver } :=
  packet_encoder_fidelity [sampleOutgoingPacket] (by decide)

/-- C5: serialization is total on validly constructed packets — it always
produces a byte sequence and never fails. -/
theorem serialize_total (p : Packet) (h : wfPacket p = true) :
    ∃ wire, p.to_wire_bytes = some wire :=
  to_wire_some p h

/-- Witness for C5 at a concrete packet. -/
theorem serialize_total_witness :
    wfPacket samplePacket = true ∧ ∃ wire, samplePacket.to_wire_bytes = some wire :=
  ⟨by decide, serialize_total samplePacket (by decide)⟩

/-- C6: every stage is FIFO — each stage distributes over concatenation of its
input stream, the socket-facing stages emit messages in arrival order, and the
whole inbound pipeline reproduces a sequence of validly encoded packets in the
same relative order. -/
theorem pipeline_ordering (ps : List (Packet × Endpoint))
    (h : ∀ x ∈ ps, wfPacket x.1 = true) :
    (∀ xs ys, PacketDecoder (xs ++ ys) = PacketDecoder xs ++ PacketDecoder ys) ∧
    (∀ (xs ys : List OutgoingPacket), (∀ m ∈ xs, wfPacket m.packet = true) →
      PacketEncoder (xs ++ ys) = PacketEncoder xs ++ PacketEncoder ys) ∧
    (∀ ds, DatagramReceiver ds
      = ds.map fun d => { datagram := d.1, sender := d.2 }) ∧
    (∀ ms, DatagramSender ms = ms.map fun m => (m.datagram, m.receiver)) ∧
    PacketDecoder (DatagramReceiver
        (ps.map fun x => ((Packet.to_wire_bytes x.1).getD [], x.2)))
      = ps.map fun x => { packet := x.1, sender := x.2 } :=
  ⟨PacketDecoder_append, PacketEncoder_append, DatagramReceiver_map,
    DatagramSender_map, decoder_receiver_roundtrip ps h⟩

/-- Witness for C6 at a concrete packet sequence. -/
theorem pipeline_ordering_witness :
    (∀ xs ys, PacketDecoder (xs ++ ys) = PacketDecoder xs ++ PacketDecoder ys) ∧
    (∀ (xs ys : List OutgoingPacket), (∀ m ∈ xs, wfPacket m.packet = true) →
      PacketEncoder (xs ++ ys) = PacketEncoder xs ++ PacketEncoder ys) ∧
    (∀ ds, DatagramReceiver ds
      = ds.map fun d => { datagram := d.1, sender := d.2 }) ∧
    (∀ ms, DatagramSender ms = ms.map fun m => (m.datagram, m.receiver)) ∧
    PacketDecoder (DatagramReceiver
        ([(samplePacket, sampleEndpointA)].map
          fun x => ((Packet.to_wire_bytes x.1).getD [], x.2)))
      = [(samplePacket, sampleEndpointA)].map
          fun x => { packet := x.1, sender := x.2 } :=
  pipeline_ordering [(samplePacket, sampleEndpointA)] (by decide)

lemma DatagramReceiver_mem {ds : List (List Nat × Endpoint)}
    {m : IncomingDatagram} (hm : m ∈ DatagramReceiver ds) :
    ∃ d ∈ ds, m.sender = d.2 := by
  rw [DatagramReceiver_map] at hm
  obtain ⟨d, hd, heq⟩ := List.mem_map.mp hm
  exact ⟨d, hd, by rw [← heq]⟩

lemma DatagramSender_mem {ms : List OutgoingDatagram} {o : List Nat × Endpoint}
    (ho : o ∈ DatagramSender ms) : ∃ m ∈ ms, o.2 = m.receiver := by
  rw [DatagramSender_map] at ho
  obtain ⟨m, hm, heq⟩ := List.mem_map.mp ho
  exact ⟨m, hm, by rw [← heq]⟩

/-- C7: endpoint construction validates the port range and the address syntax
and fails when either is violated; none of the four stages builds new
endpoints, so every endpoint flowing through any stage satisfies the invariant
whenever the stage's inputs do. -/
theorem endpoint_invariant :
    (∀ ip port e, Endpoint.make ip port = some e → validEndpoint e = true) ∧
    (∀ ip port, validEndpoint { ip_address := ip, port := port } = false →
      Endpoint.make ip port = none) ∧
    (∀ ds : List (List Nat × Endpoint), (∀ d ∈ ds, validEndpoint d.2 = true) →
      ∀ m ∈ DatagramReceiver ds, validEndpoint m.sender = true) ∧
    (∀ ds, (∀ d ∈ ds, validEndpoint d.sender = true) →
      ∀ m ∈ PacketDecoder ds, validEndpoint m.sender = true) ∧
    (∀ ms, (∀ m ∈ ms, validEndpoint m.receiver = true) →
      ∀ o ∈ PacketEncoder ms, validEndpoint o.receiver = true) ∧
    (∀ ms : List OutgoingDatagram, (∀ m ∈ ms, validEndpoint m.receiver = true) →
      ∀ o ∈ DatagramSender ms, validEndpoint o.2 = true) := by
  refine ⟨?_, ?_, ?_, ?_, ?_, ?_⟩
  · intro ip port e hmk
    unfold Endpoint.make at hmk
    split at hmk
    · cases hmk; assumption
    · cases hmk
  · intro ip port hv
    simp [Endpoint.make, hv]
  · intro ds hds m hm
    obtain ⟨d, hd, hsen⟩ := DatagramReceiver_mem hm
    rw [hsen]; exact hds d hd
  · intro ds hds m hm
    obtain ⟨d, hd, _, hsen⟩ := PacketDecoder_mem hm
    rw [hsen]; exact hds d hd
  · intro ms hms o ho
    obtain ⟨m, hm, hr⟩ := PacketEncoder_mem ho
    rw [hr]; exact hms m hm
  · intro ms hms o ho
    obtain ⟨m, hm, hr⟩ := DatagramSender_mem ho
    rw [hr]; exact hms m hm

/-- Witness for C7 at a concrete address and port. -/
theorem endpoint_invariant_witness : validEndpoint sampleEndpointA = true :=
  endpoint_invariant.1 (.v4 127 0 0 1) 30303 sampleEndpointA (by decide)

/-!
Part 4: lemmas about the sparse merkle construction.
-/

lemma two_mul_xor_one (m : Nat) : (2 * m) ^^^ 1 = 2 * m + 1 := by
  apply Nat.eq_of_testBit_eq
  intro i
  cases i with
  | zero =>
    rw [Nat.testBit_xor, Nat.testBit_zero, Nat.testBit_zero, Nat.testBit_zero]
    have h0 : (2 * m) % 2 = 0 := by omega
    have h1 : (2 * m + 1) % 2 = 1 := by omega
    simp [h0, h1]
  | succ j =>
    rw [Nat.testBit_xor, Nat.testBit_succ, Nat.testBit_succ, Nat.testBit_succ]
    have h2 : 2 * m / 2 = m := by omega
    have h3 : (2 * m + 1) / 2 = m := by omega
    have h4 : (1 : Nat) / 2 = 0 := by norm_num
    rw [h2, h3, h4, Nat.zero_testBit, Bool.xor_false]

lemma two_mul_add_one_xor_one (m : Nat) : (2 * m + 1) ^^^ 1 = 2 * m := by
  apply Nat.eq_of_testBit_eq
  intro i
  cases i with
  | zero =>
    rw [Nat.testBit_xor, Nat.testBit_zero, Nat.testBit_zero, Nat.testBit_zero]
    have h0 : (2 * m) % 2 = 0 := by omega
    have h1 : (2 * m + 1) % 2 = 1 := by omega
    simp [h0, h1]
  | succ j =>
    rw [Nat.testBit_xor, Nat.testBit_succ, Nat.testBit_succ, Nat.testBit_succ]
    have h2 : 2 * m / 2 = m := by omega
    have h3 : (2 * m + 1) / 2 = m := by omega
    have h4 : (1 : Nat) / 2 = 0 := by norm_num
    rw [h2, h3, h4, Nat.zero_testBit, Bool.xor_false]

lemma fdiv_emod_bridge (i k : Nat) :
    (((i : Int).fdiv ((2 : Int) ^ k)).emod 2 ≠ 0) ↔ (i / 2 ^ k) % 2 = 1 := by
  have h1 : ((2 : Int) ^ k) = ((2 ^ k : Nat) : Int) := by push_cast; ring
  rw [h1, Int.fdiv_eq_tdiv (by positivity) (by positivity), ← Int.ofNat_tdiv]
  have h2 : (((i / 2 ^ k : Nat) : Int)).emod 2 = ((i / 2 ^ k : Nat) : Int) % 2 := rfl
  rw [h2]
  omega

lemma takeIterate_eq_map_range (f : α → α) :
    ∀ (n : Nat) (x : α), takeIterate f n x = (List.range n).map fun j => f^[j] x := by
  intro n
  induction n with
  | zero => intro x; rfl
  | succ n ih =>
    intro x
    rw [takeIterate, ih (f x), List.range_succ_eq_map, List.map_cons, List.map_map]
    refine congrArg₂ _ (Function.iterate_zero_apply f x).symm ?_
    refine List.map_congr_left fun j _ => ?_
    show f^[j] (f x) = f^[j.succ] x
    rw [Function.iterate_succ_apply]

lemma getD_map_range (f : Nat → α) (n j : Nat) (d : α) (h : j < n) :
    ((List.range n).map f).getD j d = f j := by
  rw [List.getD_eq_getElem?_getD, List.getElem?_map, List.getElem?_range h,
    Option.map_some', Option.getD_some]

lemma div_iterate (i : Nat) : ∀ j, (fun index => index / 2)^[j] i = i / 2 ^ j := by
  intro j
  induction j with
  | zero => simp
  | succ j ih =>
    rw [Function.iterate_succ_apply', ih]
    show i / 2 ^ j / 2 = i / 2 ^ (j + 1)
    rw [Nat.div_div_eq_div_mul, pow_succ]

lemma emptyHash_eq_iterate (H : Hash → Hash) (j : Nat) :
    emptyHash H j
      = (fun node_hash => H (node_hash ++ node_hash))^[j] (List.replicate 32 0) := by
  induction j with
  | zero => rfl
  | succ j ih => rw [emptyHash, ih, Function.iterate_succ_apply']

lemma EmptyNodeHashes_getD (H : Hash → Hash) (j : Nat) (h : j < TreeHeight) :
    (EmptyNodeHashes H).getD j [] = emptyHash H j := by
  rw [EmptyNodeHashes, takeIterate_eq_map_range, getD_map_range _ _ _ _ h,
    emptyHash_eq_iterate]

lemma pairs_length : ∀ (l : List α), (pairs l).length = l.length / 2
  | [] => by simp [pairs]
  | [_] => by simp [pairs]
  | _ :: _ :: rest => by
    rw [pairs, List.length_cons, pairs_length rest]
    simp only [List.length_cons]
    omega

lemma pairs_getD (d : α) : ∀ (l : List α) (k : Nat), 2 * k + 1 < l.length →
    (pairs l).getD k (d, d) = (l.getD (2 * k) d, l.getD (2 * k + 1) d)
  | [], k, h => by simp at h
  | [_], k, h => by simp only [List.length_cons, List.length_nil] at h; omega
  | a :: b :: rest, 0, _ => rfl
  | a :: b :: rest, k + 1, h => by
    have h2 : 2 * k + 1 < rest.length := by
      simp only [List.length_cons] at h; omega
    have e1 : 2 * (k + 1) = 2 * k + 1 + 1 := by ring
    rw [pairs, List.getD_cons_succ, pairs_getD d rest k h2, e1,
      List.getD_cons_succ, List.getD_cons_succ, List.getD_cons_succ,
      List.getD_cons_succ]

lemma _hash_layer_length (H : Hash → Hash) (l : List Hash) :
    (_hash_layer H l).length = l.length / 2 := by
  rw [_hash_layer, List.length_map, pairs_length]

lemma _hash_layer_getD (H : Hash → Hash) (l : List Hash) (k : Nat)
    (h : 2 * k + 1 < l.length) :
    (_hash_layer H l).getD k [] = H (l.getD (2 * k) [] ++ l.getD (2 * k + 1) []) := by
  have hk : k < (pairs l).length := by rw [pairs_length]; omega
  rw [_hash_layer, List.getD_eq_getElem?_getD, List.getElem?_map,
    List.getElem?_eq_getElem hk, Option.map_some', Option.getD_some]
  have hget : (pairs l)[k] = (pairs l).getD k ([], []) := by
    rw [List.getD_eq_getElem?_getD, List.getElem?_eq_getElem hk, Option.getD_some]
  rw [hget, pairs_getD ([] : Hash) l k h]
  rfl

lemma padEven_length (e : Hash) (l : List Hash) :
    (padEven e l).length = l.length + l.length % 2 := by
  rw [padEven]
  split
  · simp only [List.length_append, List.length_cons, List.length_nil]; omega
  · omega

lemma padEven_getD (e : Hash) (l : List Hash) (k : Nat) (h : k < l.length) (d : Hash) :
    (padEven e l).getD k d = l.getD k d := by
  rw [padEven]
  split
  · rw [List.getD_eq_getElem?_getD, List.getElem?_append, if_pos h,
      ← List.getD_eq_getElem?_getD]
  · rfl

lemma layerL_length_succ (H : Hash → Hash) (leaves : List Hash) (j : Nat) :
    (layerL H leaves (j + 1)).length
      = ((layerL H leaves j).length + (layerL H leaves j).length % 2) / 2 := by
  rw [layerL, _hash_layer_length, padEven_length]

lemma layerL_pos (H : Hash → Hash) (leaves : List Hash) (h : leaves ≠ []) :
    ∀ j, 1 ≤ (layerL H leaves j).length := by
  intro j
  induction j with
  | zero => exact List.length_pos.mpr h
  | succ j ih => rw [layerL_length_succ]; omega

lemma layerL_index_lt (H : Hash → Hash) (leaves : List Hash) (i : Nat)
    (h : i < leaves.length) :
    ∀ j, i / 2 ^ j < (layerL H leaves j).length := by
  intro j
  induction j with
  | zero => simpa using h
  | succ j ih =>
    have e : i / 2 ^ (j + 1) = i / 2 ^ j / 2 := by
      rw [Nat.div_div_eq_div_mul, pow_succ]
    rw [e, layerL_length_succ]
    omega

lemma layerL_length_le (H : Hash → Hash) (leaves : List Hash)
    (h : leaves.length ≤ 2 ^ TreeHeight) :
    ∀ j, j ≤ TreeHeight → (layerL H leaves j).length ≤ 2 ^ (TreeHeight - j) := by
  intro j
  induction j with
  | zero => intro _; simpa using h
  | succ j ih =>
    intro hj
    have ihj := ih (by omega)
    have e : 2 ^ (TreeHeight - j) = 2 * 2 ^ (TreeHeight - (j + 1)) := by
      rw [← pow_succ']
      congr 1
      omega
    rw [e] at ihj
    rw [layerL_length_succ]
    omega

lemma calc_eq (H : Hash → Hash) (leaves : List Hash) (hne : leaves ≠ []) :
    calc_merkle_tree_from_leaves H leaves
      = some (layerL H leaves TreeHeight
          :: ((List.range TreeHeight).reverse.map (layerP H leaves))) := by
  have main : ∀ k, k ≤ TreeHeight →
      (List.range k).foldl
        (fun tree i =>
          let padded :=
            if (tree.getD 0 []).length % 2 = 1 then
              update_tuple_item tree 0
                ((tree.getD 0 []) ++ [(EmptyNodeHashes H).getD i []])
            else tree
          _hash_layer H (padded.getD 0 []) :: padded)
        [leaves]
      = layerL H leaves k :: ((List.range k).reverse.map (layerP H leaves)) := by
    intro k
    induction k with
    | zero => intro _; rfl
    | succ k ih =>
      intro hk
      rw [List.range_succ, List.foldl_append, ih (by omega), List.foldl_cons,
        List.foldl_nil]
      simp only [List.getD_cons_zero]
      by_cases hodd : (layerL H leaves k).length % 2 = 1
      · rw [if_pos hodd, update_tuple_item, List.set_cons_zero, List.getD_cons_zero,
          EmptyNodeHashes_getD H k (by omega)]
        have hP : layerP H leaves k = layerL H leaves k ++ [emptyHash H k] := by
          rw [layerP, padEven, if_pos hodd]
        have hL : layerL H leaves (k + 1)
            = _hash_layer H (layerL H leaves k ++ [emptyHash H k]) := by
          rw [layerL, padEven, if_pos hodd]
        rw [List.reverse_append, List.reverse_singleton,
          List.singleton_append, List.map_cons, hP, hL]
      · rw [if_neg hodd, List.getD_cons_zero]
        have hP : layerP H leaves k = layerL H leaves k := by
          rw [layerP, padEven, if_neg hodd]
        have hL : layerL H leaves (k + 1) = _hash_layer H (layerL H leaves k) := by
          rw [layerL, padEven, if_neg hodd]
        rw [List.reverse_append, List.reverse_singleton,
          List.singleton_append, List.map_cons, hP, hL]
  rw [calc_merkle_tree_from_leaves,
    if_neg (by simpa [List.length_eq_zero] using hne), main TreeHeight le_rfl]

lemma reverse_map_range_getLastD (f : Nat → List Hash) (n : Nat) (d : List Hash)
    (h : 0 < n) : ((List.range n).reverse.map f).getLastD d = f 0 := by
  obtain ⟨m, rfl⟩ : ∃ m, n = m + 1 := ⟨n - 1, by omega⟩
  rw [List.range_succ_eq_map, List.reverse_cons, List.map_append, List.map_cons,
    List.map_nil, List.getLastD_concat]

lemma reverse_map_range_getD (f : Nat → List Hash) (n j : Nat) (d : List Hash)
    (h : j < n) : ((List.range n).reverse.map f).getD j d = f (n - 1 - j) := by
  have hlen : j < ((List.range n).reverse.map f).length := by
    rw [List.length_map, List.length_reverse, List.length_range]; exact h
  rw [List.getD_eq_getElem?_getD, List.getElem?_eq_getElem hlen, Option.getD_some]
  simp only [List.getElem_map, List.getElem_reverse, List.getElem_range,
    List.length_range]

lemma zip_truncate : ∀ (a : List α) (x : α) (b : List β), b.length ≤ a.length →
    (a ++ [x]).zip b = a.zip b
  | _, _, [], _ => by simp
  | [], _, _ :: _, h => by simp at h
  | a :: as, x, b :: bs, h => by
    rw [List.cons_append, List.zip_cons_cons, List.zip_cons_cons,
      zip_truncate as x bs (by simp only [List.length_cons] at h; omega)]

lemma tree_getLastD (H : Hash → Hash) (leaves : List Hash) :
    (layerL H leaves TreeHeight
      :: ((List.range TreeHeight).reverse.map (layerP H leaves))).getLastD []
    = layerP H leaves 0 := by
  rw [List.getLastD_cons, reverse_map_range_getLastD _ _ _ (by decide)]

lemma get_merkle_proof_eq (H : Hash → Hash) (leaves : List Hash)
    (i : Nat) (hi : i < leaves.length)
    (hz : leaves.getD i [] ≠ List.replicate 32 0) :
    get_merkle_proof H
        (layerL H leaves TreeHeight
          :: ((List.range TreeHeight).reverse.map (layerP H leaves)))
        (i : Int)
      = some ((List.range TreeHeight).map
          fun j => (layerP H leaves j).getD ((i / 2 ^ j) ^^^ 1) []) := by
  have hE0 : (EmptyNodeHashes H).getD 0 [] = List.replicate 32 0 := by
    rw [EmptyNodeHashes_getD H 0 (by decide)]
    rfl
  set t := layerL H leaves TreeHeight
      :: ((List.range TreeHeight).reverse.map (layerP H leaves)) with ht
  have hlast : t.getLastD [] = layerP H leaves 0 := tree_getLastD H leaves
  have hP0 : (layerP H leaves 0).getD i [] = leaves.getD i [] := by
    rw [layerP]
    exact padEven_getD _ _ _ (by simpa [layerL] using hi) _
  have hlen0 : (t.getLastD []).length = leaves.length + leaves.length % 2 := by
    rw [hlast, layerP, padEven_length]
    simp only [layerL]
  have htlen : t.length = TreeHeight + 1 := by
    rw [ht]
    simp only [List.length_cons, List.length_map, List.length_reverse,
      List.length_range]
  have hguard : ¬((i : Int) < 0 ∨ ((t.getLastD []).length : Int) ≤ (i : Int) ∨
      (t.getLastD []).getD ((i : Int)).toNat [] = (EmptyNodeHashes H).getD 0 []) := by
    push_neg
    refine ⟨by positivity, ?_, ?_⟩
    · rw [hlen0]
      push_cast
      omega
    · rw [Int.toNat_natCast, hlast, hP0, hE0]
      exact hz
  have hpi : ((get_branch_indices i (TreeHeight + 1)).map fun n => n ^^^ 1).dropLast
      = (List.range TreeHeight).map fun j => (i / 2 ^ j) ^^^ 1 := by
    rw [get_branch_indices, takeIterate_eq_map_range, List.map_map,
      List.range_succ, List.map_append, List.map_cons, List.map_nil,
      List.dropLast_concat]
    refine List.map_congr_left fun j _ => ?_
    show ((fun index => index / 2)^[j] i) ^^^ 1 = (i / 2 ^ j) ^^^ 1
    rw [div_iterate]
  rw [get_merkle_proof, if_neg hguard]
  simp only [Int.toNat_natCast]
  rw [htlen, hpi, ht, List.reverse_cons, List.map_reverse, List.reverse_reverse,
    zip_truncate _ _ _ (by simp), List.zip_map', List.map_map]
  exact congrArg some (List.map_congr_left fun j _ => rfl)

lemma verify_main (H : Hash → Hash) (leaves : List Hash)
    (hlen : leaves.length ≤ 2 ^ TreeHeight) (i : Nat) (hi : i < leaves.length) :
    verify_merkle_proof H ((layerL H leaves TreeHeight).getD 0 [])
      (leaves.getD i []) (i : Int)
      ((List.range TreeHeight).map
        fun j => (layerP H leaves j).getD ((i / 2 ^ j) ^^^ 1) [])
      = some true := by
  set pf := (List.range TreeHeight).map
      fun j => (layerP H leaves j).getD ((i / 2 ^ j) ^^^ 1) [] with hpf
  have hpflen : pf.length = TreeHeight := by
    rw [hpf, List.length_map, List.length_range]
  have inv : ∀ k, k ≤ TreeHeight →
      (List.range k).foldl
        (fun value t =>
          if (((i : Int)).fdiv ((2 : Int) ^ t)).emod 2 ≠ 0 then
            H (pf.getD t [] ++ value)
          else H (value ++ pf.getD t []))
        (leaves.getD i [])
      = (layerL H leaves k).getD (i / 2 ^ k) [] := by
    intro k
    induction k with
    | zero =>
      intro _
      simp [layerL]
    | succ k ih =>
      intro hk1
      have hk : k ≤ TreeHeight := by omega
      have hklt : k < TreeHeight := by omega
      rw [List.range_succ, List.foldl_append, ih hk, List.foldl_cons,
        List.foldl_nil]
      have hpfk : pf.getD k [] = (layerP H leaves k).getD ((i / 2 ^ k) ^^^ 1) [] := by
        rw [hpf]; exact getD_map_range _ _ _ _ hklt
      have hidx : i / 2 ^ k < (layerL H leaves k).length :=
        layerL_index_lt H leaves i hi k
      have hLP : (layerL H leaves k).getD (i / 2 ^ k) []
          = (layerP H leaves k).getD (i / 2 ^ k) [] := by
        rw [layerP, padEven_getD _ _ _ hidx]
      have hlenP : (layerP H leaves k).length
          = (layerL H leaves k).length + (layerL H leaves k).length % 2 := by
        rw [layerP, padEven_length]
      have hsucc : i / 2 ^ (k + 1) = i / 2 ^ k / 2 := by
        rw [Nat.div_div_eq_div_mul, pow_succ]
      have hL1 : layerL H leaves (k + 1) = _hash_layer H (layerP H leaves k) := by
        rw [layerL, layerP]
      by_cases hbit : (i / 2 ^ k) % 2 = 1
      · rw [if_pos ((fdiv_emod_bridge i k).mpr hbit)]
        have hm : i / 2 ^ k = 2 * (i / 2 ^ (k + 1)) + 1 := by
          rw [hsucc]; omega
        rw [hpfk, hLP, hm, two_mul_add_one_xor_one, hL1,
          _hash_layer_getD H _ _ (by rw [hlenP]; omega)]
      · rw [if_neg (fun hc => hbit ((fdiv_emod_bridge i k).mp hc))]
        have hm : i / 2 ^ k = 2 * (i / 2 ^ (k + 1)) := by
          rw [hsucc]; omega
        rw [hpfk, hLP, hm, two_mul_xor_one, hL1,
          _hash_layer_getD H _ _ (by rw [hlenP]; omega)]
  have hzero : i / 2 ^ TreeHeight = 0 :=
    Nat.div_eq_of_lt (Nat.lt_of_lt_of_le hi hlen)
  have hfold := inv TreeHeight le_rfl
  rw [hzero] at hfold
  rw [verify_merkle_proof, if_neg (by simp [hpflen])]
  rw [hfold]
  simp

/-- C8: for a non-empty leaf sequence of at most 2 to the TreeHeight hashes and
an in-range index whose leaf is not the 32-zero-byte hash, the tree built by
`calc_merkle_tree_from_leaves` yields a proof of length `TreeHeight` via
`get_merkle_proof`, and `verify_merkle_proof` accepts it against the tree's
root and that leaf. -/
theorem merkle_proof_round_trip (H : Hash → Hash) (leaves : List Hash) (i : Nat)
    (h1 : leaves ≠ []) (h2 : leaves.length ≤ 2 ^ TreeHeight)
    (h3 : i < leaves.length) (h4 : leaves.getD i [] ≠ List.replicate 32 0) :
    ∃ t pf, calc_merkle_tree_from_leaves H leaves = some t ∧
      get_merkle_proof H t (i : Int) = some pf ∧
      pf.length = TreeHeight ∧
      verify_merkle_proof H (get_root t) (leaves.getD i []) (i : Int) pf
        = some true := by
  refine ⟨_, _, calc_eq H leaves h1, get_merkle_proof_eq H leaves i h3 h4, ?_, ?_⟩
  · rw [List.length_map, List.length_range]
  · have hroot : get_root (layerL H leaves TreeHeight
        :: ((List.range TreeHeight).reverse.map (layerP H leaves)))
        = (layerL H leaves TreeHeight).getD 0 [] := by
      rw [get_root, List.getD_cons_zero]
    rw [hroot]
    exact verify_main H leaves h2 i h3

/-- Witness for C8 at a concrete one-leaf tree and a concrete hash function. -/
theorem merkle_proof_round_trip_witness :
    ([List.replicate 32 1] : List Hash) ≠ [] ∧
    ∃ t pf,
      calc_merkle_tree_from_leaves (fun _ => []) [List.replicate 32 1] = some t ∧
      get_merkle_proof (fun _ => []) t ((0 : Nat) : Int) = some pf ∧
      pf.length = TreeHeight ∧
      verify_merkle_proof (fun _ => []) (get_root t)
        ([List.replicate 32 1].getD 0 []) ((0 : Nat) : Int) pf = some true :=
  ⟨by decide, merkle_proof_round_trip (fun _ => []) [List.replicate 32 1] 0
    (by decide) (by norm_num [TreeHeight]) (by decide) (by decide)⟩

/-- C9: for a tree built by `calc_merkle_tree_from_leaves`, `get_merkle_proof`
fails exactly when the index is negative, at least the length of the tree's
leaf layer, or addresses a leaf equal to the 32-zero-byte hash; in particular a
leaf explicitly supplied as the zero hash admits no proof. -/
theorem get_merkle_proof_error_iff (H : Hash → Hash) (leaves : List Hash)
    (t : List (List Hash)) (idx : Int)
    (ht : calc_merkle_tree_from_leaves H leaves = some t) :
    (get_merkle_proof H t idx = none ↔
      (idx < 0 ∨ ((t.getLastD []).length : Int) ≤ idx ∨
        (t.getLastD []).getD idx.toNat [] = List.replicate 32 0)) ∧
    (∀ i : Nat, i < leaves.length → leaves.getD i [] = List.replicate 32 0 →
      get_merkle_proof H t (i : Int) = none) := by
  have hE0 : (EmptyNodeHashes H).getD 0 [] = List.replicate 32 0 := by
    rw [EmptyNodeHashes_getD H 0 (by decide)]; rfl
  have hne : leaves ≠ [] := by
    intro h
    rw [h] at ht
    simp [calc_merkle_tree_from_leaves] at ht
  have h2 := calc_eq H leaves hne
  rw [ht] at h2
  have hteq := Option.some.inj h2
  have hiff : ∀ idx2 : Int, get_merkle_proof H t idx2 = none ↔
      (idx2 < 0 ∨ ((t.getLastD []).length : Int) ≤ idx2 ∨
        (t.getLastD []).getD idx2.toNat [] = List.replicate 32 0) := by
    intro idx2
    rw [get_merkle_proof, hE0]
    split
    · next h => exact iff_of_true rfl h
    · next h => exact iff_of_false (by simp) h
  refine ⟨hiff idx, ?_⟩
  intro i hi hz
  refine (hiff (i : Int)).mpr (Or.inr (Or.inr ?_))
  rw [Int.toNat_natCast, hteq, tree_getLastD, layerP,
    padEven_getD _ _ _ (by simpa [layerL] using hi)]
  exact hz

/-- Witness tree for C9: the tree over one non-zero leaf with the constant-nil
hash function. -/
def sampleTree : List (List Hash) :=
  [[]] :: List.replicate 31 [[], []] ++ [[List.replicate 32 5, List.replicate 32 0]]

set_option maxRecDepth 4096 in
/-- Witness for C9 at a concrete tree and a negative index. -/
theorem get_merkle_proof_error_iff_witness :
    calc_merkle_tree_from_leaves (fun _ => []) [List.replicate 32 5]
      = some sampleTree ∧
    ((get_merkle_proof (fun _ => []) sampleTree (-1) = none ↔
      ((-1 : Int) < 0 ∨ ((sampleTree.getLastD []).length : Int) ≤ -1 ∨
        (sampleTree.getLastD []).getD (-1 : Int).toNat [] = List.replicate 32 0)) ∧
    (∀ i : Nat, i < [List.replicate 32 5].length →
      [List.replicate 32 5].getD i [] = List.replicate 32 0 →
      get_merkle_proof (fun _ => []) sampleTree (i : Int) = none)) :=
  ⟨by decide, get_merkle_proof_error_iff (fun _ => []) [List.replicate 32 5]
    sampleTree (-1) (by decide)⟩

/-- C10: building a tree fails exactly on empty input; on non-empty input of at
most 2 to the TreeHeight leaves it yields TreeHeight + 1 layers ordered root
first, each stored layer arising from its child layer padded (when odd) with
the empty-subtree hash of that height and hashed pairwise, with a single-hash
root layer. -/
theorem calc_merkle_tree_spec (H : Hash → Hash) (leaves : List Hash) :
    (calc_merkle_tree_from_leaves H leaves = none ↔ leaves = []) ∧
    (∀ t, leaves.length ≤ 2 ^ TreeHeight →
      calc_merkle_tree_from_leaves H leaves = some t →
      t.length = TreeHeight + 1 ∧
      t.getD TreeHeight [] = padEven (emptyHash H 0) leaves ∧
      (∀ j, j + 1 < TreeHeight →
        t.getD (TreeHeight - (j + 1)) []
          = padEven (emptyHash H (j + 1))
              (_hash_layer H (t.getD (TreeHeight - j) []))) ∧
      t.getD 0 [] = _hash_layer H (t.getD 1 []) ∧
      (t.getD 0 []).length = 1) := by
  constructor
  · rw [calc_merkle_tree_from_leaves]
    split
    · next h => exact iff_of_true rfl (List.length_eq_zero.mp h)
    · next h => exact iff_of_false (by simp) fun heq => h (by simp [heq])
  · intro t hlen ht
    have hne : leaves ≠ [] := by
      intro h
      rw [h] at ht
      simp [calc_merkle_tree_from_leaves] at ht
    have h2 := calc_eq H leaves hne
    rw [ht] at h2
    have hteq := Option.some.inj h2
    subst hteq
    have tg : ∀ j, j < TreeHeight →
        (layerL H leaves TreeHeight
          :: ((List.range TreeHeight).reverse.map (layerP H leaves))).getD
            (TreeHeight - j) []
        = layerP H leaves j := by
      intro j hj
      have e : TreeHeight - j = (TreeHeight - 1 - j) + 1 := by omega
      rw [e, List.getD_cons_succ, reverse_map_range_getD _ _ _ _ (by omega)]
      congr 1
      omega
    refine ⟨?_, ?_, ?_, ?_, ?_⟩
    · simp [List.length_cons, List.length_map, List.length_reverse,
        List.length_range]
    · have h0 := tg 0 (by decide)
      rw [Nat.sub_zero] at h0
      rw [h0]
      rfl
    · intro j hj
      rw [tg (j + 1) (by omega), tg j (by omega)]
      rfl
    · have h31 := tg 31 (by decide)
      have e31 : TreeHeight - 31 = 1 := rfl
      rw [e31] at h31
      have e32 : TreeHeight = 31 + 1 := rfl
      rw [List.getD_cons_zero, h31, e32, layerL, layerP]
    · rw [List.getD_cons_zero]
      have hle := layerL_length_le H leaves hlen TreeHeight le_rfl
      have hpos := layerL_pos H leaves hne TreeHeight
      rw [Nat.sub_self, pow_zero] at hle
      omega

/-- Witness for C10 at a concrete one-leaf input. -/
theorem calc_merkle_tree_spec_witness :
    (calc_merkle_tree_from_leaves (fun _ => []) [List.replicate 32 9] = none ↔
      [List.replicate 32 9] = ([] : List Hash)) ∧
    (∀ t, ([List.replicate 32 9] : List Hash).length ≤ 2 ^ TreeHeight →
      calc_merkle_tree_from_leaves (fun _ => []) [List.replicate 32 9] = some t →
      t.length = TreeHeight + 1 ∧
      t.getD TreeHeight []
        = padEven (emptyHash (fun _ => []) 0) [List.replicate 32 9] ∧
      (∀ j, j + 1 < TreeHeight →
        t.getD (TreeHeight - (j + 1)) []
          = padEven (emptyHash (fun _ => []) (j + 1))
              (_hash_layer (fun _ => []) (t.getD (TreeHeight - j) []))) ∧
      t.getD 0 [] = _hash_layer (fun _ => []) (t.getD 1 []) ∧
      (t.getD 0 []).length = 1) :=
  calc_merkle_tree_spec (fun _ => []) [List.replicate 32 9]
